import Mathlib

/-!
Shallow embedding of the Swendsen–Wang proposal engine of `src/Models.py`
(`SwendsonWang.proposal` and `SwendsonWang.initial`).

Modelling conventions:
* the finite field of order `q` is embedded as `ZMod q`;
* the external `Lattice` object is reduced to the interface the core queries:
  its boundary operator (an `N × M` matrix over the field, `N` vertices and
  `M` edges) and, for each edge, the pair of endpoint vertex indices
  (`edge.coordinates`, read through `.index`); the edge's own `.index` is its
  position in the 1-skeleton list, so edges are indexed by `Fin M`;
* the random primitives (`np.random.uniform`, the injected `uniform`
  distribution) are external: their draws enter as explicit input streams
  (`qrand : Fin M → ℝ` for the per-edge uniform reals, `coeff : ℕ → ZMod q`
  for the per-basis-vector field coefficients, `dist : ℕ → ℕ` for the
  per-vertex initial draws);
* the finite-field linear-algebra primitive `null_space` (from the `galois`
  package) is external: it enters as a function parameter returning a list of
  basis vectors; claims about it carry the hypothesis that the returned
  vectors lie in the null space;
* Python's `functools.reduce` without an initial value raises `TypeError` on
  an empty iterable, so it is embedded as `reduce1`, returning `Option`;
  `none` models the raised error.
-/

/-- The slice of the external `Lattice` object that `proposal` reads:
`lattice.boundary` (an `N × M` matrix over the field) and, for each of the
`M` edges of `lattice.structure[1]`, the endpoint indices `u.index, v.index`
obtained from `edge.coordinates`. -/
structure SWLattice (q N M : ℕ) where
  boundary : Matrix (Fin N) (Fin M) (ZMod q)
  endpoints : Fin M → Fin N × Fin N

/-- The slice of the external `Chain` object that `proposal` reads:
`chain.state` (one field element per vertex) and `chain.step`. -/
structure Chain (q N : ℕ) where
  state : Fin N → ZMod q
  step : ℕ

/-- The per-call inclusion probability `p = 1 - np.exp(self.temperature(chain.step))`
computed in `proposal`. -/
noncomputable def inclusionProb (temperature : ℕ → ℝ) (step : ℕ) : ℝ :=
  1 - Real.exp (temperature step)

open Classical in
/-- The transient spin flag written on edge `e` by the per-edge scan of
`proposal`: `edge.spin = 0` when the endpoint spins differ, otherwise
`edge.spin = 1` exactly when the uniform draw satisfies `q < p`
(`edge.spin = 0` in the remaining branch). -/
noncomputable def edgeFlag {q N M : ℕ} (L : SWLattice q N M) (state : Fin N → ZMod q)
    (temperature : ℕ → ℝ) (step : ℕ) (qrand : Fin M → ℝ) (e : Fin M) : Bool :=
  if state (L.endpoints e).1 ≠ state (L.endpoints e).2 then false
  else if qrand e < inclusionProb temperature step then true else false

open Classical in
/-- The edge-inclusion selector built by the scan: `included` starts as the
`M × M` zero matrix over the field and the scan sets `included[e.index, e.index] = 1`
exactly for the edges whose flag was set to 1; nothing else is ever written. -/
noncomputable def included {q N M : ℕ} (L : SWLattice q N M) (state : Fin N → ZMod q)
    (temperature : ℕ → ℝ) (step : ℕ) (qrand : Fin M → ℝ) :
    Matrix (Fin M) (Fin M) (ZMod q) :=
  Matrix.of fun i j =>
    if i = j ∧ edgeFlag L state temperature step qrand i = true then 1 else 0

/-- The induced boundary `boundary = np.matmul(lattice.boundary, included)`. -/
noncomputable def inducedBoundary {q N M : ℕ} (L : SWLattice q N M) (state : Fin N → ZMod q)
    (temperature : ℕ → ℝ) (step : ℕ) (qrand : Fin M → ℝ) :
    Matrix (Fin N) (Fin M) (ZMod q) :=
  L.boundary * included L state temperature step qrand

/-- The induced coboundary `coboundary = boundary.T`. -/
noncomputable def coboundary {q N M : ℕ} (L : SWLattice q N M) (state : Fin N → ZMod q)
    (temperature : ℕ → ℝ) (step : ℕ) (qrand : Fin M → ℝ) :
    Matrix (Fin M) (Fin N) (ZMod q) :=
  Matrix.transpose (inducedBoundary L state temperature step qrand)

/-- Python's `functools.reduce` with no initial value: raises (here `none`) on
an empty list, otherwise folds the function from the first element. -/
def reduce1 {α : Type} (f : α → α → α) : List α → Option α
  | [] => none
  | x :: xs => some (xs.foldl f x)

/-- The proposal value: `basis = coboundary.null_space()` (external primitive,
passed in as `nullSpace`), then
`reduce(np.add, [uniform(0, order) * b for b in basis])`, one fresh coefficient
draw per basis vector in order. `none` models the `TypeError` that `reduce`
raises on an empty basis. -/
noncomputable def proposal {q N M : ℕ} (L : SWLattice q N M) (state : Fin N → ZMod q)
    (temperature : ℕ → ℝ) (step : ℕ) (qrand : Fin M → ℝ)
    (nullSpace : Matrix (Fin M) (Fin N) (ZMod q) → List (Fin N → ZMod q))
    (coeff : ℕ → ZMod q) : Option (Fin N → ZMod q) :=
  let basis := nullSpace (coboundary L state temperature step qrand)
  reduce1 (fun a b => a + b) (basis.enum.map fun bi => coeff bi.1 • bi.2)

/-- One full `proposal(chain)` call viewed with its writes made explicit: the
call reads `chain.lattice, chain.state, chain.step`, writes only the per-edge
transient spin flags (on the lattice's edge objects) and call-local matrices,
and returns the proposed vector; it contains no assignment to `chain.state`
or `chain.step`, so the chain component of the result is the input chain. -/
noncomputable def proposalRun {q N M : ℕ} (L : SWLattice q N M) (c : Chain q N)
    (temperature : ℕ → ℝ) (qrand : Fin M → ℝ)
    (nullSpace : Matrix (Fin M) (Fin N) (ZMod q) → List (Fin N → ZMod q))
    (coeff : ℕ → ZMod q) :
    Chain q N × (Fin M → Bool) × Option (Fin N → ZMod q) :=
  (c,
   fun e => edgeFlag L c.state temperature c.step qrand e,
   proposal L c.state temperature c.step qrand nullSpace coeff)

/-- `SwendsonWang.initial`: draws `distribution(0, lattice.field.order)` once
per vertex; in testing mode it instead returns the all-ones vector
`lattice.field(np.array([1]*len(vertices)))`. -/
def initial (testing : Bool) (q N : ℕ) (dist : ℕ → ℕ) : Fin N → ZMod q :=
  if testing then fun _ => 1 else fun i => ((dist i : ℕ) : ZMod q)

/-- Modelled from the spec: the `Lattice` class (external to the analysed
sources) supplies the boundary operator, "mapping each 1-cell to the
(signed/field-valued) combination of its boundary 0-cells"; at an edge `e`
with two distinct endpoints this is the column with `+1` at one endpoint,
`-1` at the other and `0` elsewhere. -/
def graphColumnAt {q N M : ℕ} (L : SWLattice q N M) (e : Fin M) : Prop :=
  (L.endpoints e).1 ≠ (L.endpoints e).2 ∧
  ∀ w, L.boundary w e =
    if w = (L.endpoints e).1 then 1
    else if w = (L.endpoints e).2 then -1 else 0

/-! Concrete fixtures used by witnesses and counterexamples. -/

/-- A two-vertex, one-edge lattice over the field of order 2; the single edge
joins vertex 0 to vertex 1 and its boundary column is `(1, 1)` (over `ZMod 2`
this is the signed column `(1, -1)`). -/
def exLattice : SWLattice 2 2 1 :=
  ⟨Matrix.of fun _ _ => 1, fun _ => (0, 1)⟩

/-- A two-edge variant of `exLattice`, used where two distinct edge indices
are needed. -/
def exLattice2 : SWLattice 2 2 2 :=
  ⟨Matrix.of fun _ _ => 1, fun _ => (0, 1)⟩

/-- A one-vertex, one-edge lattice whose boundary matrix is `(1)`; its
coboundary has trivial null space once the edge is included. -/
def exLoop : SWLattice 2 1 1 :=
  ⟨Matrix.of fun _ _ => 1, fun _ => (0, 0)⟩

/-- The all-zero spin state on two vertices: both endpoint spins agree. -/
def stateEq : Fin 2 → ZMod 2 := fun _ => 0

/-- A spin state on two vertices whose endpoint spins differ. -/
def stateNe : Fin 2 → ZMod 2 := fun i => if i = 0 then 0 else 1

/-- The constant temperature schedule `0`, for which `p = 1 - exp 0 = 0`. -/
def tempZero : ℕ → ℝ := fun _ => 0

/-- The constant temperature schedule `-1`, for which `p = 1 - exp (-1) > 0`. -/
def tempNeg : ℕ → ℝ := fun _ => -1

/-- A per-edge uniform draw stream with every draw equal to `1/2`. -/
noncomputable def drawHalf : Fin 1 → ℝ := fun _ => 1/2

/-- A per-edge uniform draw stream with every draw equal to `0`. -/
def drawZero : Fin 1 → ℝ := fun _ => 0

/-- A per-edge uniform draw stream on two edges, every draw equal to `0`. -/
def draw2Zero : Fin 2 → ℝ := fun _ => 0

/-- A stand-in for the external null-space primitive returning an empty basis. -/
def nsEmpty : Matrix (Fin 1) (Fin 1) (ZMod 2) → List (Fin 1 → ZMod 2) :=
  fun _ => []

/-- A stand-in for the external null-space primitive returning the one-vector
basis consisting of the all-ones vector on two vertices. -/
def nsOne : Matrix (Fin 1) (Fin 2) (ZMod 2) → List (Fin 2 → ZMod 2) :=
  fun _ => [fun _ => 1]

/-- The coefficient draw stream that always returns the field element 1. -/
def oneCoeff : ℕ → ZMod 2 := fun _ => 1

/-- The coefficient draw stream that always returns the field element 0. -/
def zeroCoeff : ℕ → ZMod 2 := fun _ => 0

/-! Helper lemmas shared by several claims. -/

lemma edgeFlag_of_ne {q N M : ℕ} (L : SWLattice q N M) (state : Fin N → ZMod q)
    (temperature : ℕ → ℝ) (step : ℕ) (qrand : Fin M → ℝ) (e : Fin M)
    (h : state (L.endpoints e).1 ≠ state (L.endpoints e).2) :
    edgeFlag L state temperature step qrand e = false := by
  simp [edgeFlag, h]

lemma edgeFlag_of_eq {q N M : ℕ} (L : SWLattice q N M) (state : Fin N → ZMod q)
    (temperature : ℕ → ℝ) (step : ℕ) (qrand : Fin M → ℝ) (e : Fin M)
    (h : state (L.endpoints e).1 = state (L.endpoints e).2) :
    (edgeFlag L state temperature step qrand e = true ↔
      qrand e < inclusionProb temperature step) := by
  simp only [edgeFlag, h]
  by_cases hlt : qrand e < inclusionProb temperature step <;> simp [hlt]

lemma included_off_diag {q N M : ℕ} (L : SWLattice q N M) (state : Fin N → ZMod q)
    (temperature : ℕ → ℝ) (step : ℕ) (qrand : Fin M → ℝ) (i j : Fin M)
    (h : i ≠ j) : included L state temperature step qrand i j = 0 := by
  simp [included, h]

lemma included_diag {q N M : ℕ} (L : SWLattice q N M) (state : Fin N → ZMod q)
    (temperature : ℕ → ℝ) (step : ℕ) (qrand : Fin M → ℝ) (e : Fin M) :
    included L state temperature step qrand e e =
      (if edgeFlag L state temperature step qrand e = true then 1 else 0) := by
  simp [included]

lemma inducedBoundary_apply {q N M : ℕ} (L : SWLattice q N M) (state : Fin N → ZMod q)
    (temperature : ℕ → ℝ) (step : ℕ) (qrand : Fin M → ℝ) (w : Fin N) (e : Fin M) :
    inducedBoundary L state temperature step qrand w e =
      (if edgeFlag L state temperature step qrand e = true then L.boundary w e else 0) := by
  rw [inducedBoundary, Matrix.mul_apply]
  have hterm : ∀ k, L.boundary w k * included L state temperature step qrand k e
      = (if k = e ∧ edgeFlag L state temperature step qrand e = true
          then L.boundary w k else 0) := by
    intro k
    by_cases hk : k = e
    · subst hk
      by_cases hf : edgeFlag L state temperature step qrand k = true
      · simp [included, hf]
      · simp [included, hf]
    · simp [included, hk]
  have hsum : (∑ j, L.boundary w j * included L state temperature step qrand j e)
      = ∑ j, (if j = e ∧ edgeFlag L state temperature step qrand e = true
          then L.boundary w j else 0) :=
    Finset.sum_congr rfl (fun k _ => hterm k)
  rw [hsum]
  by_cases hf : edgeFlag L state temperature step qrand e = true
  · simp only [hf, and_true]
    rw [Finset.sum_ite_eq' Finset.univ e (fun k => L.boundary w k)]
    simp
  · simp [hf]

lemma coboundary_mulVec_apply {q N M : ℕ} (L : SWLattice q N M) (state : Fin N → ZMod q)
    (temperature : ℕ → ℝ) (step : ℕ) (qrand : Fin M → ℝ) (x : Fin N → ZMod q) (e : Fin M) :
    (coboundary L state temperature step qrand).mulVec x e =
      ∑ w, inducedBoundary L state temperature step qrand w e * x w := by
  simp [coboundary, Matrix.mulVec, Matrix.dotProduct, Matrix.transpose_apply]

lemma coboundary_eq_zero_of_flags_false {q N M : ℕ} (L : SWLattice q N M)
    (state : Fin N → ZMod q) (temperature : ℕ → ℝ) (step : ℕ) (qrand : Fin M → ℝ)
    (hall : ∀ e, edgeFlag L state temperature step qrand e = false) :
    coboundary L state temperature step qrand = 0 := by
  ext e w
  rw [coboundary, Matrix.transpose_apply, inducedBoundary_apply]
  simp [hall e]

lemma sum_pm_mul {q N : ℕ} (u v : Fin N) (huv : u ≠ v) (f : Fin N → ZMod q) :
    (∑ w, (if w = u then 1 else if w = v then (-1 : ZMod q) else 0) * f w) = f u - f v := by
  have hterm : ∀ w, (if w = u then 1 else if w = v then (-1 : ZMod q) else 0) * f w
      = (if w = u then f w else 0) + (if w = v then -(f w) else 0) := by
    intro w
    by_cases hu : w = u
    · subst hu
      rw [if_pos rfl, if_pos rfl, if_neg huv]
      ring
    · by_cases hv : w = v
      · subst hv
        rw [if_neg hu, if_pos rfl, if_neg hu, if_pos rfl]
        ring
      · rw [if_neg hu, if_neg hv, if_neg hu, if_neg hv]
        ring
  rw [Finset.sum_congr rfl (fun w _ => hterm w), Finset.sum_add_distrib,
    Finset.sum_ite_eq' Finset.univ u f, Finset.sum_ite_eq' Finset.univ v (fun w => -(f w))]
  simp [sub_eq_add_neg]

lemma mulVec_foldl_eq_zero {q N M : ℕ} (A : Matrix (Fin M) (Fin N) (ZMod q)) :
    ∀ (l : List (Fin N → ZMod q)) (acc : Fin N → ZMod q),
      A.mulVec acc = 0 → (∀ x ∈ l, A.mulVec x = 0) →
      A.mulVec (l.foldl (fun a b => a + b) acc) = 0 := by
  intro l
  induction l with
  | nil => intro acc hacc _; simpa using hacc
  | cons x xs ih =>
      intro acc hacc hl
      have hx : A.mulVec x = 0 := hl x (List.mem_cons_self x xs)
      have hax : A.mulVec (acc + x) = 0 := by
        rw [Matrix.mulVec_add, hacc, hx, add_zero]
      exact ih (acc + x) hax (fun y hy => hl y (List.mem_cons_of_mem x hy))

lemma snd_mem_of_mem_enumFrom {α : Type} {p : ℕ × α} :
    ∀ {n : ℕ} {l : List α}, p ∈ List.enumFrom n l → p.2 ∈ l := by
  intro n l
  induction l generalizing n with
  | nil => intro h; simp [List.enumFrom] at h
  | cons x xs ih =>
      intro h
      rw [List.enumFrom] at h
      rcases List.mem_cons.1 h with h1 | h2
      · subst h1; exact List.mem_cons_self x xs
      · exact List.mem_cons_of_mem x (ih h2)

lemma inclusionProb_tempZero : inclusionProb tempZero 0 = 0 := by
  simp [inclusionProb, tempZero, Real.exp_zero]

lemma inclusionProb_tempNeg_pos : 0 < inclusionProb tempNeg 0 := by
  have h : Real.exp (-1) < Real.exp 0 := Real.exp_lt_exp.2 (by norm_num)
  rw [Real.exp_zero] at h
  simp only [inclusionProb, tempNeg]
  linarith

/-! Claim theorems. -/

/-- C3: for every edge whose two endpoints carry differing spins under the
input chain state, the transient spin flag is 0 after the scan and the edge's
diagonal entry of the edge-inclusion selector stays 0, for every stream of
uniform draws — no random draw is consulted for that edge. -/
theorem edge_excluded_on_spin_mismatch {q N M : ℕ} (L : SWLattice q N M)
    (state : Fin N → ZMod q) (temperature : ℕ → ℝ) (step : ℕ) (e : Fin M)
    (h : state (L.endpoints e).1 ≠ state (L.endpoints e).2) :
    ∀ qrand : Fin M → ℝ,
      edgeFlag L state temperature step qrand e = false ∧
      included L state temperature step qrand e e = 0 := by
  intro qrand
  have hf := edgeFlag_of_ne L state temperature step qrand e h
  refine ⟨hf, ?_⟩
  rw [included_diag]
  simp [hf]

/-- Witness for C3 on the concrete two-vertex lattice with differing spins. -/
theorem edge_excluded_on_spin_mismatch_witness :
    stateNe (exLattice.endpoints 0).1 ≠ stateNe (exLattice.endpoints 0).2 ∧
    (edgeFlag exLattice stateNe tempZero 0 drawZero 0 = false ∧
     included exLattice stateNe tempZero 0 drawZero 0 0 = 0) :=
  ⟨by decide,
   edge_excluded_on_spin_mismatch exLattice stateNe tempZero 0 0 (by decide) drawZero⟩

/-- C4: for every edge whose two endpoints carry equal spins under the input
chain state, the edge is included exactly when the uniform draw satisfies
`q_rand < p` with `p = 1 - exp (temperature step)`; when included the selector
diagonal entry is set to 1 and the flag to 1, otherwise the flag is 0 and the
entry stays 0. -/
theorem edge_inclusion_iff_draw_below_prob {q N M : ℕ} (L : SWLattice q N M)
    (state : Fin N → ZMod q) (temperature : ℕ → ℝ) (step : ℕ) (qrand : Fin M → ℝ)
    (e : Fin M) (h : state (L.endpoints e).1 = state (L.endpoints e).2) :
    (edgeFlag L state temperature step qrand e = true ↔
      qrand e < inclusionProb temperature step) ∧
    (edgeFlag L state temperature step qrand e = true →
      included L state temperature step qrand e e = 1) ∧
    (edgeFlag L state temperature step qrand e = false →
      included L state temperature step qrand e e = 0) := by
  refine ⟨edgeFlag_of_eq L state temperature step qrand e h, ?_, ?_⟩ <;>
    intro hf <;> rw [included_diag] <;> simp [hf]

/-- Witness for C4 on the concrete two-vertex lattice with equal spins. -/
theorem edge_inclusion_iff_draw_below_prob_witness :
    stateEq (exLattice.endpoints 0).1 = stateEq (exLattice.endpoints 0).2 ∧
    ((edgeFlag exLattice stateEq tempNeg 0 drawZero 0 = true ↔
      drawZero 0 < inclusionProb tempNeg 0) ∧
     (edgeFlag exLattice stateEq tempNeg 0 drawZero 0 = true →
      included exLattice stateEq tempNeg 0 drawZero 0 0 = 1) ∧
     (edgeFlag exLattice stateEq tempNeg 0 drawZero 0 = false →
      included exLattice stateEq tempNeg 0 drawZero 0 0 = 0)) :=
  ⟨by decide,
   edge_inclusion_iff_draw_below_prob exLattice stateEq tempNeg 0 drawZero 0 (by decide)⟩

/-- C5: the induced boundary is the matrix product of the complex's boundary
operator with the edge-inclusion selector; columnwise, an included edge
contributes its boundary column unchanged and an excluded edge contributes the
zero column. -/
theorem induced_boundary_columns {q N M : ℕ} (L : SWLattice q N M)
    (state : Fin N → ZMod q) (temperature : ℕ → ℝ) (step : ℕ) (qrand : Fin M → ℝ) :
    inducedBoundary L state temperature step qrand =
      L.boundary * included L state temperature step qrand ∧
    ∀ w e, inducedBoundary L state temperature step qrand w e =
      (if edgeFlag L state temperature step qrand e = true then L.boundary w e else 0) :=
  ⟨rfl, fun w e => inducedBoundary_apply L state temperature step qrand w e⟩

/-- C6: an out-of-range inclusion probability is not clamped: when
`p = 1 - exp (temperature step) ≤ 0` no edge is included (the selector is the
zero matrix), and when `p ≥ 1` every same-spin edge is included, provided every
uniform draw lies in `[0, 1)`. -/
theorem out_of_range_prob_degenerates {q N M : ℕ} (L : SWLattice q N M)
    (state : Fin N → ZMod q) (temperature : ℕ → ℝ) (step : ℕ) (qrand : Fin M → ℝ)
    (h0 : ∀ e, 0 ≤ qrand e) (h1 : ∀ e, qrand e < 1) :
    (inclusionProb temperature step ≤ 0 →
      (∀ e, edgeFlag L state temperature step qrand e = false) ∧
      included L state temperature step qrand = 0) ∧
    (1 ≤ inclusionProb temperature step →
      ∀ e, state (L.endpoints e).1 = state (L.endpoints e).2 →
        edgeFlag L state temperature step qrand e = true ∧
        included L state temperature step qrand e e = 1) := by
  constructor
  · intro hp
    have hall : ∀ e, edgeFlag L state temperature step qrand e = false := by
      intro e
      by_cases h : state (L.endpoints e).1 = state (L.endpoints e).2
      · cases hb : edgeFlag L state temperature step qrand e with
        | false => rfl
        | true =>
            exfalso
            have hlt := (edgeFlag_of_eq L state temperature step qrand e h).1 hb
            linarith [h0 e]
      · exact edgeFlag_of_ne L state temperature step qrand e h
    refine ⟨hall, ?_⟩
    ext i j
    by_cases hij : i = j
    · subst hij
      rw [included_diag]
      simp [hall i]
    · rw [included_off_diag L state temperature step qrand i j hij]
      simp
  · intro hp e he
    have hlt : qrand e < inclusionProb temperature step := lt_of_lt_of_le (h1 e) hp
    have hf : edgeFlag L state temperature step qrand e = true :=
      (edgeFlag_of_eq L state temperature step qrand e he).2 hlt
    refine ⟨hf, ?_⟩
    rw [included_diag]
    simp [hf]

/-- Witness for C6: the constant-zero schedule yields `p = 0 ≤ 0` and the
degenerate no-inclusion branch applies to draws in `[0, 1)`. -/
theorem out_of_range_prob_degenerates_witness :
    (∀ e, 0 ≤ drawZero e) ∧ (∀ e, drawZero e < 1) ∧ inclusionProb tempZero 0 ≤ 0 ∧
    ((inclusionProb tempZero 0 ≤ 0 →
      (∀ e, edgeFlag exLattice stateEq tempZero 0 drawZero e = false) ∧
      included exLattice stateEq tempZero 0 drawZero = 0) ∧
     (1 ≤ inclusionProb tempZero 0 →
      ∀ e, stateEq (exLattice.endpoints e).1 = stateEq (exLattice.endpoints e).2 →
        edgeFlag exLattice stateEq tempZero 0 drawZero e = true ∧
        included exLattice stateEq tempZero 0 drawZero e e = 1)) :=
  ⟨fun _ => le_refl 0, fun _ => by norm_num [drawZero],
   le_of_eq inclusionProb_tempZero,
   out_of_range_prob_degenerates exLattice stateEq tempZero 0 drawZero
     (fun _ => le_refl 0) (fun _ => by norm_num [drawZero])⟩

/-- C7: with the testing flag enabled, `initial` returns the all-ones vector,
one field element per vertex (the type `Fin N → ZMod q` carries the length),
whatever the injected distribution draws. -/
theorem initial_testing_all_ones (q N : ℕ) (dist : ℕ → ℕ) :
    initial true q N dist = fun _ => (1 : ZMod q) := rfl

/-- C8: with the testing flag disabled and a distribution honouring its
`[low, high)` bounds contract, `initial` returns exactly the per-vertex casts
of the draws, each a valid field element whose value is below the field
order. -/
theorem initial_shape_and_range (q N : ℕ) (dist : ℕ → ℕ) (hq : 0 < q)
    (hd : ∀ i, dist i < q) :
    initial false q N dist = (fun i : Fin N => ((dist i : ℕ) : ZMod q)) ∧
    ∀ i : Fin N, (initial false q N dist i).val = dist i ∧
      (initial false q N dist i).val < q := by
  haveI : NeZero q := ⟨hq.ne'⟩
  refine ⟨rfl, fun i => ?_⟩
  have hv : (initial false q N dist i).val = dist i := by
    show ((dist i : ℕ) : ZMod q).val = dist i
    rw [ZMod.val_natCast]
    exact Nat.mod_eq_of_lt (hd i)
  exact ⟨hv, hv ▸ hd i⟩

/-- Witness for C8 with field order 3, two vertices and the draws `i % 3`. -/
theorem initial_shape_and_range_witness :
    0 < 3 ∧ (∀ i, i % 3 < 3) ∧
    (initial false 3 2 (fun i => i % 3) =
      (fun i : Fin 2 => ((i.val % 3 : ℕ) : ZMod 3)) ∧
     ∀ i : Fin 2, (initial false 3 2 (fun j => j % 3) i).val = i.val % 3 ∧
       (initial false 3 2 (fun j => j % 3) i).val < 3) :=
  ⟨by norm_num, fun i => Nat.mod_lt i (by norm_num),
   initial_shape_and_range 3 2 (fun j => j % 3) (by norm_num)
     (fun i => Nat.mod_lt i (by norm_num))⟩

/-- C9: a `proposal` call leaves the chain's stored state vector and step
index unchanged and returns the freshly computed candidate of the state and
step it read; the only structures it writes are the per-edge transient spin
flags and call-local matrices, returned alongside. -/
theorem proposal_frame {q N M : ℕ} (L : SWLattice q N M) (c : Chain q N)
    (temperature : ℕ → ℝ) (qrand : Fin M → ℝ)
    (nullSpace : Matrix (Fin M) (Fin N) (ZMod q) → List (Fin N → ZMod q))
    (coeff : ℕ → ZMod q) :
    (proposalRun L c temperature qrand nullSpace coeff).1 = c ∧
    (proposalRun L c temperature qrand nullSpace coeff).2.2 =
      proposal L c.state temperature c.step qrand nullSpace coeff :=
  ⟨rfl, rfl⟩

/-- C10: after the per-edge scan the edge-inclusion selector is diagonal: all
off-diagonal entries are 0 and each diagonal entry equals that edge's
transient spin flag, a value in the set containing 0 and 1. -/
theorem selector_diagonal {q N M : ℕ} (L : SWLattice q N M) (state : Fin N → ZMod q)
    (temperature : ℕ → ℝ) (step : ℕ) (qrand : Fin M → ℝ) :
    (∀ i j, i ≠ j → included L state temperature step qrand i j = 0) ∧
    (∀ e, included L state temperature step qrand e e =
        (if edgeFlag L state temperature step qrand e = true then 1 else 0) ∧
      (included L state temperature step qrand e e = 0 ∨
       included L state temperature step qrand e e = 1)) := by
  refine ⟨fun i j hij => included_off_diag L state temperature step qrand i j hij,
    fun e => ?_⟩
  rw [included_diag]
  by_cases hf : edgeFlag L state temperature step qrand e = true <;> simp [hf]

/-- Witness for C10 at a concrete off-diagonal position of the two-edge
lattice. -/
theorem selector_diagonal_witness :
    (0 : Fin 2) ≠ 1 ∧ included exLattice2 stateEq tempZero 0 draw2Zero 0 1 = 0 :=
  ⟨by decide,
   (selector_diagonal exLattice2 stateEq tempZero 0 draw2Zero).1 0 1 (by decide)⟩

/-- C2: assuming the external null-space primitive returns vectors lying in
the null space of the induced coboundary, a returned proposal lies in that
null space; in particular, across every edge whose transient spin flag is 1
and whose boundary column has the spec-modelled signed endpoint form, the
proposed values at the two endpoints agree. -/
theorem proposal_in_null_space {q N M : ℕ} (L : SWLattice q N M)
    (state : Fin N → ZMod q) (temperature : ℕ → ℝ) (step : ℕ) (qrand : Fin M → ℝ)
    (nullSpace : Matrix (Fin M) (Fin N) (ZMod q) → List (Fin N → ZMod q))
    (coeff : ℕ → ZMod q) (v : Fin N → ZMod q)
    (hbasis : ∀ b ∈ nullSpace (coboundary L state temperature step qrand),
      (coboundary L state temperature step qrand).mulVec b = 0)
    (hres : proposal L state temperature step qrand nullSpace coeff = some v) :
    (coboundary L state temperature step qrand).mulVec v = 0 ∧
    ∀ e, graphColumnAt L e → edgeFlag L state temperature step qrand e = true →
      v (L.endpoints e).1 = v (L.endpoints e).2 := by
  have hmem : ∀ y ∈ (nullSpace (coboundary L state temperature step qrand)).enum.map
      (fun bi => coeff bi.1 • bi.2),
      (coboundary L state temperature step qrand).mulVec y = 0 := by
    intro y hy
    rcases List.mem_map.1 hy with ⟨bi, hbi, rfl⟩
    have hb : bi.2 ∈ nullSpace (coboundary L state temperature step qrand) :=
      snd_mem_of_mem_enumFrom (by simpa [List.enum] using hbi)
    rw [Matrix.mulVec_smul, hbasis bi.2 hb, smul_zero]
  have hunfold : proposal L state temperature step qrand nullSpace coeff
      = reduce1 (fun a b => a + b)
        ((nullSpace (coboundary L state temperature step qrand)).enum.map
          (fun bi => coeff bi.1 • bi.2)) := rfl
  rw [hunfold] at hres
  have hv0 : (coboundary L state temperature step qrand).mulVec v = 0 := by
    cases hl : (nullSpace (coboundary L state temperature step qrand)).enum.map
        (fun bi => coeff bi.1 • bi.2) with
    | nil =>
        rw [hl] at hres
        exact absurd hres (by simp [reduce1])
    | cons x xs =>
        rw [hl] at hres
        simp only [reduce1, Option.some.injEq] at hres
        rw [← hres]
        refine mulVec_foldl_eq_zero _ xs x ?_ ?_
        · exact hmem x (by rw [hl]; exact List.mem_cons_self x xs)
        · intro y hy
          exact hmem y (by rw [hl]; exact List.mem_cons_of_mem x hy)
  refine ⟨hv0, fun e hcol hf => ?_⟩
  have h0 : (coboundary L state temperature step qrand).mulVec v e = 0 := by
    rw [hv0]
    simp
  rw [coboundary_mulVec_apply] at h0
  have hterm : ∀ w, inducedBoundary L state temperature step qrand w e * v w
      = (if w = (L.endpoints e).1 then 1
          else if w = (L.endpoints e).2 then (-1 : ZMod q) else 0) * v w := by
    intro w
    rw [inducedBoundary_apply, if_pos hf, hcol.2 w]
  rw [Finset.sum_congr rfl (fun w _ => hterm w),
    sum_pm_mul (L.endpoints e).1 (L.endpoints e).2 hcol.1 v] at h0
  exact sub_eq_zero.1 h0

/-- Witness for C2 on the two-vertex lattice with differing spins: every edge
is excluded, the coboundary is the zero matrix, the supplied basis vector lies
in its null space and the returned proposal does too. -/
theorem proposal_in_null_space_witness :
    (∀ b ∈ nsOne (coboundary exLattice stateNe tempZero 0 drawZero),
      (coboundary exLattice stateNe tempZero 0 drawZero).mulVec b = 0) ∧
    proposal exLattice stateNe tempZero 0 drawZero nsOne oneCoeff =
      some (oneCoeff 0 • fun _ => (1 : ZMod 2)) ∧
    ((coboundary exLattice stateNe tempZero 0 drawZero).mulVec
        (oneCoeff 0 • fun _ => (1 : ZMod 2)) = 0 ∧
      ∀ e, graphColumnAt exLattice e →
        edgeFlag exLattice stateNe tempZero 0 drawZero e = true →
        (oneCoeff 0 • fun _ => (1 : ZMod 2)) (exLattice.endpoints e).1 =
        (oneCoeff 0 • fun _ => (1 : ZMod 2)) (exLattice.endpoints e).2) := by
  have hall : ∀ e, edgeFlag exLattice stateNe tempZero 0 drawZero e = false := by
    intro e
    have he : e = 0 := Subsingleton.elim e 0
    subst he
    exact edgeFlag_of_ne exLattice stateNe tempZero 0 drawZero 0 (by decide)
  have hcob : coboundary exLattice stateNe tempZero 0 drawZero = 0 :=
    coboundary_eq_zero_of_flags_false exLattice stateNe tempZero 0 drawZero hall
  have hbasis : ∀ b ∈ nsOne (coboundary exLattice stateNe tempZero 0 drawZero),
      (coboundary exLattice stateNe tempZero 0 drawZero).mulVec b = 0 := by
    intro b _
    rw [hcob]
    exact Matrix.zero_mulVec b
  have hres : proposal exLattice stateNe tempZero 0 drawZero nsOne oneCoeff =
      some (oneCoeff 0 • fun _ => (1 : ZMod 2)) := rfl
  exact ⟨hbasis, hres,
    proposal_in_null_space exLattice stateNe tempZero 0 drawZero nsOne oneCoeff
      (oneCoeff 0 • fun _ => (1 : ZMod 2)) hbasis hres⟩

/-- C1 counterexample: a call of `proposal` in which the computed null-space
basis is empty does not return the all-zero vector: the reduction over the
empty basis raises (embedded as `none`). In this call the induced coboundary
is the matrix `(1)`, whose null space is trivial, so the empty basis is the
honest answer of the external null-space primitive. -/
theorem proposal_empty_basis_cex :
    proposal exLoop (fun _ => 0) tempNeg 0 drawZero nsEmpty oneCoeff = none := rfl

/-- C1 (amended): whenever the computed null-space basis is empty, `proposal`
raises an error (Python's `reduce` over an empty iterable with no initial
value), embedded as the `none` result; it does not return the zero vector. -/
theorem proposal_errors_on_empty_basis {q N M : ℕ} (L : SWLattice q N M)
    (state : Fin N → ZMod q) (temperature : ℕ → ℝ) (step : ℕ) (qrand : Fin M → ℝ)
    (nullSpace : Matrix (Fin M) (Fin N) (ZMod q) → List (Fin N → ZMod q))
    (coeff : ℕ → ZMod q)
    (h : nullSpace (coboundary L state temperature step qrand) = []) :
    proposal L state temperature step qrand nullSpace coeff = none := by
  have hunfold : proposal L state temperature step qrand nullSpace coeff
      = reduce1 (fun a b => a + b)
        ((nullSpace (coboundary L state temperature step qrand)).enum.map
          (fun bi => coeff bi.1 • bi.2)) := rfl
  rw [hunfold, h]
  rfl

/-- Witness for the amended C1 at the concrete one-vertex loop lattice. -/
theorem proposal_errors_on_empty_basis_witness :
    nsEmpty (coboundary exLoop (fun _ => 0) tempNeg 0 drawZero) = [] ∧
    proposal exLoop (fun _ => 0) tempNeg 0 drawZero nsEmpty zeroCoeff = none :=
  ⟨rfl, proposal_errors_on_empty_basis exLoop (fun _ => 0) tempNeg 0 drawZero
    nsEmpty zeroCoeff rfl⟩

lemma exLoop_flag_true : edgeFlag exLoop (fun _ => 0) tempNeg 0 drawZero 0 = true := by
  refine (edgeFlag_of_eq exLoop (fun _ => 0) tempNeg 0 drawZero 0 rfl).2 ?_
  simpa [drawZero] using inclusionProb_tempNeg_pos

lemma exLoop_coboundary_trivial :
    ∀ x : Fin 1 → ZMod 2,
      (coboundary exLoop (fun _ => 0) tempNeg 0 drawZero).mulVec x = 0 → x = 0 := by
  intro x hx
  have h0 : (coboundary exLoop (fun _ => 0) tempNeg 0 drawZero).mulVec x 0 = 0 := by
    rw [hx]
    simp
  rw [coboundary_mulVec_apply, Fin.sum_univ_one, inducedBoundary_apply,
    if_pos exLoop_flag_true] at h0
  have hb : exLoop.boundary 0 0 = 1 := rfl
  rw [hb, one_mul] at h0
  funext w
  have hw : w = 0 := Subsingleton.elim w 0
  subst hw
  simpa using h0
